import Mathlib

/-!
Verification of the sshs interactive host-selection engine against its
natural-language specification.  The Go sources are shallowly embedded:
strings become lists of characters, struct types become structures, the
imperative loops become structural recursions, and Go panics are modelled
with `Option` (`none` = panic).  Each claim of the specification is settled
by a theorem about these embeddings.
-/

namespace Sshs

/-- Go strings are modelled as lists of characters (Go iterates over runes
in every loop relevant here; byte-level indexing only occurs on ASCII
quotes, where bytes and runes coincide). -/
abbrev Str := List Char

/-- Go strings.ToLower, applied rune by rune.  The claims only exercise the
ASCII range, where Lean's Char.toLower agrees with Go's unicode.ToLower. -/
def goToLower (s : Str) : Str := s.map Char.toLower

/-- Go strings.Contains s sub: sub occurs as a contiguous substring of s. -/
def goContains (s sub : Str) : Bool := decide (sub <:+: s)

/-- Go strings.Join(xs, " "). -/
def joinSpace : List Str → Str
  | [] => []
  | [x] => x
  | x :: xs => x ++ ' ' :: joinSpace xs

/-- One normalized host entry (type Host of package ui): Name, User,
HostName, ProxyCommand, and Port already rendered to a string with
strconv.Itoa. -/
structure Host where
  name : Str
  user : Str
  hostName : Str
  proxyCommand : Str
  port : Str
deriving DecidableEq, Repr

/-- Display-name quote stripping in NewHostsTable (ui/hosts.go lines 84-88
and part_007 lines 125-127): when name[0] == a double quote and
name[len(name)-1] == a double quote, the name becomes name[1:len(name)-1].
Go panics on the empty name (index 0 out of range) and on the one-character
name consisting of a lone quote (slice bounds [1:0]); both are modelled as
`none`. -/
def stripHostName : Str → Option Str
  | [] => none
  | c :: rest =>
    if c = '"' ∧ (c :: rest).getLast? = some '"' then
      if rest = [] then none else some rest.dropLast
    else some (c :: rest)

/-- ParseHosts loop body (internal/ssh/config.go lines 10-22): characters
are copied to the output; the first double quote is skipped and sets the
isInString flag, and the loop breaks at the second double quote. -/
def parseHostsLoop : Str → Bool → Str
  | [], _ => []
  | c :: rest, isInString =>
    if c = '"' then
      if isInString then [] else parseHostsLoop rest true
    else c :: parseHostsLoop rest isInString

/-- ParseHosts (internal/ssh/config.go lines 5-25): join the patterns with
single spaces, then scan with the quote-tracking loop. -/
def parseHosts (hosts : List Str) : Str := parseHostsLoop (joinSpace hosts) false

/-- Target column of a host row (Generate loop, hosts.go lines 134-145):
HostName when non-empty, otherwise the ProxyCommand or the fixed
"(Proxy)" placeholder depending on the display option; none when both are
empty (the row is skipped). -/
def targetOf (displayFullProxy : Bool) (h : Host) : Option Str :=
  if h.hostName ≠ [] then some h.hostName
  else if h.proxyCommand = [] then none
  else if displayFullProxy then some h.proxyCommand else some "(Proxy)".toList

/-- One table row for a host under the given already-lowercased filter
(Generate loop, hosts.go lines 133-151): the row is included iff the filter
is a substring of the lowercased name or of the lowercased target. -/
def rowOf (displayFullProxy : Bool) (filter : Str) (h : Host) : Option (List Str) :=
  match targetOf displayFullProxy h with
  | none => none
  | some target =>
    if goContains (goToLower h.name) filter || goContains (goToLower target) filter then
      some [h.name, h.user, target, h.port]
    else none

/-- The visible rows of the table: every host whose row passes the filter,
in host-list order. -/
def visibleRows (hosts : List Host) (filter : Str) (displayFullProxy : Bool) :
    List (List Str) :=
  hosts.filterMap (rowOf displayFullProxy filter)

theorem infix_append_singleton (sub : Str) (c : Char) : sub <:+: sub ++ [c] :=
  ⟨[], [c], by simp⟩

theorem goContains_of_append_char {s sub : Str} {c : Char}
    (h : goContains s (sub ++ [c]) = true) : goContains s sub = true := by
  simp only [goContains, decide_eq_true_eq] at h ⊢
  exact List.IsInfix.trans (infix_append_singleton sub c) h

/-- C5: appending one character to the (lowercased) filter never makes a
hidden row visible: every row visible under the longer query is visible
under the shorter one, where a row is visible iff the lowercase query is a
substring of the lowercased name or of the lowercased target (the empty
query is a substring of everything, hence shows every row). -/
theorem visibleRows_query_append_subset
    (hosts : List Host) (q : Str) (c : Char) (dfp : Bool) :
    visibleRows hosts (goToLower (q ++ [c])) dfp ⊆ visibleRows hosts (goToLower q) dfp := by
  intro r hr
  simp only [visibleRows, List.mem_filterMap] at hr ⊢
  obtain ⟨h, hmem, hrow⟩ := hr
  refine ⟨h, hmem, ?_⟩
  unfold rowOf at hrow ⊢
  cases ht : targetOf dfp h with
  | none => simp [ht] at hrow
  | some target =>
    simp only [ht] at hrow ⊢
    have hlower : goToLower (q ++ [c]) = goToLower q ++ [c.toLower] := by
      simp [goToLower]
    rw [hlower] at hrow
    by_cases h1 : goContains (goToLower h.name) (goToLower q ++ [c.toLower]) = true
    · have := goContains_of_append_char h1
      simp only [this, Bool.true_or, if_true] at hrow ⊢
      simpa [h1] using hrow
    · by_cases h2 : goContains (goToLower target) (goToLower q ++ [c.toLower]) = true
      · have := goContains_of_append_char h2
        simp only [this, Bool.or_true, if_true] at hrow ⊢
        simpa [h1, h2] using hrow
      · simp [h1, h2] at hrow

/-- C7 (amended): the display name is the patterns joined by single spaces;
a matching pair of surrounding double quotes (a leading quote, a distinct
trailing quote) is stripped exactly once, and a name that is unquoted or
carries an unbalanced quote is preserved unchanged; the one-character name
consisting of a lone double quote passes the both-ends index check and the
slice name[1:0] panics. -/
theorem stripHostName_spec (patterns : List Str) (name : Str)
    (hn : name = joinSpace patterns) :
    (∀ inner : Str, name = '"' :: (inner ++ ['"']) → stripHostName name = some inner) ∧
    (name ≠ [] → ¬(name.head? = some '"' ∧ name.getLast? = some '"') →
      stripHostName name = some name) ∧
    (name = ['"'] → stripHostName name = none) := by
  subst hn
  refine ⟨?_, ?_, ?_⟩
  · intro inner hshape
    rw [hshape]
    have hlast : (('"' : Char) :: (inner ++ ['"'])).getLast? = some '"' := by
      rw [show (('"' : Char) :: (inner ++ ['"'])) = ('"' :: inner) ++ ['"'] by simp]
      exact List.getLast?_concat _
    simp [stripHostName, hlast, List.dropLast_concat]
  · intro hne hq
    match hshape : joinSpace patterns with
    | [] => exact absurd hshape hne
    | c :: rest =>
      rw [hshape] at hq
      have : ¬(c = '"' ∧ (c :: rest).getLast? = some '"') := by
        intro ⟨h1, h2⟩
        exact hq ⟨by simp [h1], h2⟩
      simp [stripHostName, this]
  · intro hshape
    rw [hshape]
    simp [stripHostName]

/-- C7 (counterexample): on the single pattern consisting of one double
quote — an unbalanced quote — the claim predicts the name is preserved
unchanged, but the code passes the both-ends index check (first and last
byte are that same quote) and the slice name[1:0] panics (modelled as
none). -/
theorem stripHostName_lone_quote_panics :
    stripHostName (joinSpace [['"']]) = none ∧
    stripHostName (joinSpace [['"']]) ≠ some ['"'] := by
  refine ⟨by decide, by decide⟩

/-- Witness for C7: the quoted two-pattern entry Host "My server" yields
display name My server, and the unbalanced name "abc keeps its quote. -/
theorem stripHostName_spec_witness :
    stripHostName (joinSpace ["\"My".toList, "server\"".toList]) =
      some "My server".toList ∧
    stripHostName (joinSpace ["\"abc".toList]) = some "\"abc".toList := by
  constructor
  · exact (stripHostName_spec ["\"My".toList, "server\"".toList] _ rfl).1
      "My server".toList (by decide)
  · exact (stripHostName_spec ["\"abc".toList] _ rfl).2.1 (by decide) (by decide)

/-- C10: when the joined pattern string has the shape a ++ quote ++ b ++
quote ++ c with a and b quote-free, ParseHosts returns a ++ b: it drops the
first quote, copies up to the second quote, and discards everything after
it — in particular all patterns after the first quoted section. -/
theorem parseHosts_truncates_after_second_quote
    (patterns : List Str) (a b c : Str)
    (hshape : joinSpace patterns = a ++ '"' :: (b ++ '"' :: c))
    (ha : '"' ∉ a) (hb : '"' ∉ b) :
    parseHosts patterns = a ++ b := by
  unfold parseHosts
  rw [hshape]
  clear hshape
  induction a with
  | nil =>
    simp only [List.nil_append]
    rw [parseHostsLoop]
    simp only [if_pos rfl, if_neg Bool.false_ne_true]
    induction b with
    | nil => simp [parseHostsLoop]
    | cons x xs ih =>
      have hx : x ≠ '"' := fun h => hb (h ▸ List.mem_cons_self x xs)
      have hxs : '"' ∉ xs := fun h => hb (List.mem_cons_of_mem x h)
      rw [List.cons_append, parseHostsLoop, if_neg hx]
      simpa using ih hxs
  | cons x xs ih =>
    have hx : x ≠ '"' := fun h => ha (h ▸ List.mem_cons_self x xs)
    have hxs : '"' ∉ xs := fun h => ha (List.mem_cons_of_mem x h)
    rw [List.cons_append, parseHostsLoop, if_neg hx]
    simpa using ih hxs

/-- Witness for C10: patterns ["My server" extra] joined give "My server" extra;
the returned name is My server and the pattern extra is dropped. -/
theorem parseHosts_truncates_witness :
    parseHosts ["\"My".toList, "server\"".toList, "extra".toList] = "My server".toList := by
  have := parseHosts_truncates_after_second_quote
    ["\"My".toList, "server\"".toList, "extra".toList]
    [] "My server".toList " extra".toList (by decide) (by decide) (by decide)
  simpa using this

/-- Cell padding (func padding, part_007 lines 250-252): one space on each
side of the text. -/
def padText (s : Str) : Str := ' ' :: s ++ [' ']

/-- Header row written by Generate (part_007 lines 186-196): four padded
header cells plus the empty expansion cell. -/
def headerRow : List Str :=
  [padText "Hostname".toList, padText "User".toList, padText "Target".toList,
   padText "Port".toList, []]

/-- Table state handed to the renderer: the cell texts of every row
(row 0 is the header) and the selected row index. -/
structure TableState where
  rows : List (List Str)
  selected : Nat
deriving DecidableEq, Repr

/-- Cell text lookup (tview Table.GetCell): a cell outside the stored rows
reads as the empty string. -/
def cellText (rows : List (List Str)) (r c : Nat) : Str := (rows.getD r []).getD c []

/-- Texts captured by Generate before rebuilding the rows (part_007 lines
198-204): Generate first calls Clear and writes the header, so at capture
time the table holds only the header row — the previously selected row's
cells read back as the header texts when the selection sits on row 0 and as
empty strings otherwise. -/
def capturedTexts (prevSelected : Nat) : List Str :=
  if prevSelected = 0 then headerRow else [[], [], [], [], []]

/-- Host loop of Generate (part_007 lines 206-245): append a padded row per
visible host; a row whose four unpadded values all equal the captured texts
becomes the selected row. The accumulated rows start with the header, so the row index of
an appended row is the current length of the accumulator. -/
def generateLoop (dfp : Bool) (filter : Str) (captured : List Str) :
    List Host → List (List Str) → Option Nat → List (List Str) × Option Nat
  | [], rows, sel => (rows, sel)
  | h :: rest, rows, sel =>
    match rowOf dfp filter h with
    | none => generateLoop dfp filter captured rest rows sel
    | some values =>
      generateLoop dfp filter captured rest (rows ++ [values.map padText ++ [[]]])
        (if captured.take 4 == values then some rows.length else sel)

/-- Generate (part_007 lines 183-248): clear, write the header, capture the
selected row's texts from the already-cleared table, rebuild the visible
rows, and re-select a row only when its values matched the captured texts;
otherwise the numeric selection is left as it was. -/
def generate (hosts : List Host) (filter : Str) (dfp : Bool) (prevSelected : Nat) :
    TableState :=
  let p := generateLoop dfp filter (capturedTexts prevSelected) hosts [headerRow] none
  ⟨p.1, p.2.getD prevSelected⟩

/-- Enter-key handler of NewHostsTable (part_007 lines 103-117): read
column 0 of the selected row and launch a connection only when that text is
non-empty; `some text` models a child process launched for that text,
`none` models the no-op. -/
def enterAction (ts : TableState) : Option Str :=
  let hostname := cellText ts.rows ts.selected 0
  if 0 < hostname.length then some hostname else none

theorem generateLoop_rows_prefix (dfp : Bool) (filter : Str) (captured : List Str) :
    ∀ (l : List Host) (rows : List (List Str)) (sel : Option Nat),
      rows <+: (generateLoop dfp filter captured l rows sel).1 := by
  intro l
  induction l with
  | nil => intro rows sel; exact List.prefix_refl rows
  | cons h rest ih =>
    intro rows sel
    rw [generateLoop]
    cases hr : rowOf dfp filter h with
    | none => exact ih rows sel
    | some values =>
      simp only []
      exact List.IsPrefix.trans (List.prefix_append rows _) (ih _ _)

/-- Helper: a generated table whose row count is 1 consists of exactly the
header row, and any cell off the header reads as the empty string. -/
theorem generate_rows_of_length_one
    (hosts : List Host) (filter : Str) (dfp : Bool) (prev : Nat)
    (hempty : (generate hosts filter dfp prev).rows.length = 1) :
    (generate hosts filter dfp prev).rows = [headerRow] := by
  have hpre : [headerRow] <+: (generate hosts filter dfp prev).rows :=
    generateLoop_rows_prefix dfp filter (capturedTexts prev) hosts [headerRow] none
  have hlen : ([headerRow] : List (List Str)).length = (generate hosts filter dfp prev).rows.length := by
    simp [hempty]
  exact (List.IsPrefix.eq_of_length hpre hlen).symm

theorem cellText_header_only (r : Nat) (hr : 1 ≤ r) :
    cellText [headerRow] r 0 = [] := by
  unfold cellText
  cases r with
  | zero => omega
  | succ k => simp [List.getD]

/-- C1 (code bug): after selecting the second visible host beta (table row
2) and refiltering with the query beta, the regenerated table holds beta at
row 1, yet the selection stays at the stale index 2 instead of following
beta to row 1 — Generate captures the selected row's texts from the
already-cleared table and compares them against unpadded values, so the
re-selection never fires. -/
theorem refilter_keeps_stale_selection :
    (generate
      [⟨"alpha".toList, "u".toList, "a.example.com".toList, [], "22".toList⟩,
       ⟨"beta".toList, "u".toList, "b.example.com".toList, [], "22".toList⟩]
      "beta".toList false 2).rows =
      [headerRow,
       [padText "beta".toList, padText "u".toList, padText "b.example.com".toList,
        padText "22".toList, []]] ∧
    (generate
      [⟨"alpha".toList, "u".toList, "a.example.com".toList, [], "22".toList⟩,
       ⟨"beta".toList, "u".toList, "b.example.com".toList, [], "22".toList⟩]
      "beta".toList false 2).selected = 2 ∧
    (2 : Nat) ≠ 1 := by
  refine ⟨by decide, by decide, by decide⟩

/-- Selection update at the bottom of the termui event loop (part_000 lines
242-254): the tentative index is reduced with Go's % (truncated remainder,
Int.tmod) by maxHosts when positive and reset to 0 otherwise, then a
negative value is wrapped up by maxHosts and a value at or above the
unfiltered row count rowsLen is wrapped down. -/
def navigate (selectedHost delta maxHosts rowsLen : Int) : Int :=
  let n1 := if 0 < maxHosts then Int.tmod (selectedHost + delta) maxHosts else 0
  if n1 < 0 then n1 + maxHosts
  else if rowsLen ≤ n1 then n1 - maxHosts
  else n1

theorem emod_neg_one {n : Int} (hn : 1 ≤ n) : (-1 : Int) % n = n - 1 := by
  have h1 : ((-1 : Int) + n * 1) % n = (-1 : Int) % n := Int.add_mul_emod_self_left (-1) n 1
  have h2 : (n - 1) % n = n - 1 := Int.emod_eq_of_lt (by omega) (by omega)
  have h3 : (-1 : Int) + n * 1 = n - 1 := by ring
  rw [h3, h2] at h1
  omega

theorem navigate_plus_one (n i rowsLen : Int) (hn : 1 ≤ n) (hi0 : 0 ≤ i)
    (hin : i < n) (hnr : n ≤ rowsLen) :
    navigate i 1 n rowsLen = (i + 1) % n := by
  have h0 : (0 : Int) < n := by omega
  have htm : Int.tmod (i + 1) n = (i + 1) % n := Int.tmod_eq_emod (by omega) (by omega)
  have hnn : 0 ≤ (i + 1) % n := Int.emod_nonneg _ (by omega)
  have hlt : (i + 1) % n < n := Int.emod_lt_of_pos _ h0
  simp only [navigate, if_pos h0, htm]
  rw [if_neg (by omega), if_neg (by omega)]

theorem navigate_minus_one (n i rowsLen : Int) (hn : 1 ≤ n) (hi0 : 0 ≤ i)
    (hin : i < n) (hnr : n ≤ rowsLen) :
    navigate i (-1) n rowsLen = (i - 1) % n := by
  have h0 : (0 : Int) < n := by omega
  rcases Int.lt_or_le 0 i with hi | hi
  · have htm : Int.tmod (i + -1) n = (i - 1) % n := by
      rw [show i + -1 = i - 1 by ring]
      rw [Int.tmod_eq_emod (by omega) (by omega)]
    have heq : (i - 1) % n = i - 1 := Int.emod_eq_of_lt (by omega) (by omega)
    simp only [navigate, if_pos h0, htm, heq]
    rw [if_neg (by omega), if_neg (by omega)]
  · have hi' : i = 0 := by omega
    subst hi'
    have hshape : (0 : Int) + -1 = -1 := by ring
    rcases Int.lt_or_le 1 n with h2 | h2
    · have htm : Int.tmod (-1) n = -1 := by
        obtain ⟨k, rfl⟩ := Int.eq_ofNat_of_zero_le (by omega : (0 : Int) ≤ n)
        have hk : 2 ≤ k := by omega
        show Int.tmod (Int.negSucc 0) (Int.ofNat k) = -1
        show -(Int.ofNat (Nat.succ 0 % k)) = -1
        rw [Nat.mod_eq_of_lt (by omega)]
        rfl
      simp only [navigate, if_pos h0, hshape, htm]
      rw [if_pos (by omega), show (0 : Int) - 1 = -1 by ring, emod_neg_one hn]
      ring
    · have hn1 : n = 1 := by omega
      subst hn1
      simp only [navigate, if_pos h0, hshape, Int.tmod_one]
      rw [if_neg (by omega), if_neg (by omega), show (0 : Int) - 1 = -1 by ring,
        emod_neg_one (by omega)]
      omega

theorem navigate_iterate_formula (n rowsLen : Int) (hn : 1 ≤ n) (hnr : n ≤ rowsLen) :
    ∀ (k : Nat) (j : Int), 0 ≤ j → j < n →
      (fun x => navigate x 1 n rowsLen)^[k] j = (j + k) % n := by
  intro k
  induction k with
  | zero =>
    intro j hj0 hjn
    simp [Int.emod_eq_of_lt hj0 hjn]
  | succ k ih =>
    intro j hj0 hjn
    rw [Function.iterate_succ_apply]
    have hf : navigate j 1 n rowsLen = (j + 1) % n :=
      navigate_plus_one n j rowsLen hn hj0 hjn hnr
    simp only [hf]
    rw [ih ((j + 1) % n) (Int.emod_nonneg _ (by omega)) (Int.emod_lt_of_pos _ (by omega))]
    rw [Int.emod_add_emod]
    congr 1
    push_cast
    ring

/-- C4: for a positive visible count n, an in-range index i and the
unfiltered row count rowsLen (always at least n), Navigate(+1) and
Navigate(-1) compute (i + delta) mod n with negative results wrapped by
adding n, never leave [0, n), return to i after n forward steps, send index
0 to n-1 on a backward step, and leave the index 0 of the empty state
unchanged when the visible count is 0. -/
theorem navigate_spec (n i rowsLen : Int) (hn : 1 ≤ n) (hi0 : 0 ≤ i)
    (hin : i < n) (hnr : n ≤ rowsLen) :
    navigate i 1 n rowsLen = (i + 1) % n ∧
    navigate i (-1) n rowsLen = (i - 1) % n ∧
    (0 ≤ navigate i 1 n rowsLen ∧ navigate i 1 n rowsLen < n) ∧
    (0 ≤ navigate i (-1) n rowsLen ∧ navigate i (-1) n rowsLen < n) ∧
    (fun x => navigate x 1 n rowsLen)^[n.toNat] i = i ∧
    navigate 0 (-1) n rowsLen = n - 1 ∧
    (∀ d r : Int, navigate 0 d 0 r = 0) := by
  have hp := navigate_plus_one n i rowsLen hn hi0 hin hnr
  have hm := navigate_minus_one n i rowsLen hn hi0 hin hnr
  refine ⟨hp, hm, ?_, ?_, ?_, ?_, ?_⟩
  · rw [hp]
    exact ⟨Int.emod_nonneg _ (by omega), Int.emod_lt_of_pos _ (by omega)⟩
  · rw [hm]
    exact ⟨Int.emod_nonneg _ (by omega), Int.emod_lt_of_pos _ (by omega)⟩
  · rw [navigate_iterate_formula n rowsLen hn hnr n.toNat i hi0 hin]
    rw [Int.toNat_of_nonneg (by omega)]
    have h1 : (i + n) % n = i % n := by
      have := Int.add_mul_emod_self_left i n 1
      rwa [show i + n * 1 = i + n by ring] at this
    rw [h1, Int.emod_eq_of_lt hi0 hin]
  · rw [navigate_minus_one n 0 rowsLen hn (by omega) (by omega) hnr]
    rw [show (0 : Int) - 1 = -1 by ring, emod_neg_one hn]
  · intro d r
    simp only [navigate]
    rw [if_neg (show ¬ (0 : Int) < 0 by omega)]
    rw [if_neg (show ¬ (0 : Int) < 0 by omega)]
    rcases Int.le_or_lt r 0 with hr | hr
    · rw [if_pos hr]
      ring
    · rw [if_neg (by omega)]

/-- Witness for C4 at n = 3, i = 1, rowsLen = 3. -/
theorem navigate_spec_witness :
    navigate 1 1 3 3 = (1 + 1) % 3 ∧
    navigate 1 (-1) 3 3 = (1 - 1) % 3 ∧
    (0 ≤ navigate 1 1 3 3 ∧ navigate 1 1 3 3 < 3) ∧
    (0 ≤ navigate 1 (-1) 3 3 ∧ navigate 1 (-1) 3 3 < 3) ∧
    (fun x => navigate x 1 3 3)^[(3 : Int).toNat] 1 = 1 ∧
    navigate 0 (-1) 3 3 = 3 - 1 ∧
    (∀ d r : Int, navigate 0 d 0 r = 0) :=
  navigate_spec 3 1 3 (by decide) (by decide) (by decide) (by decide)

/-- Outcome of Run (internal/ssh/ssh.go lines 26-31) for a child process
that started and exited with the given status: cmd.Run returns a non-nil
error exactly when the status is non-zero, and then the whole process exits
with ProcessState.ExitCode(), which is that same status.  some k = the tool
terminates with status k inside Run; none = Run returns and the caller
continues. -/
def sshRunExit (childStatus : Nat) : Option Nat :=
  if childStatus ≠ 0 then some childStatus else none

/-- Outcome of connect (ui/hosts.go lines 31-43 and part_000 lines 21-33):
like Run, but the process also exits with status 0 after a clean session;
the result is always the status the whole tool terminates with. -/
def connectExit (childStatus : Nat) : Nat :=
  if childStatus ≠ 0 then childStatus else 0

/-- C3: a launched child exiting with a non-zero status k makes the whole
tool terminate with exactly k, in both launcher generations, with no
retry (the launchers run the command exactly once and exit). -/
theorem exit_code_propagation (k : Nat) (hk : k ≠ 0) :
    sshRunExit k = some k ∧ connectExit k = k := by
  constructor
  · simp [sshRunExit, hk]
  · simp [connectExit, hk]

/-- Witness for C3 at the spec's example status 3. -/
theorem exit_code_propagation_witness : sshRunExit 3 = some 3 ∧ connectExit 3 = 3 :=
  exit_code_propagation 3 (by decide)

/-- White-space test of Go's unicode.IsSpace: the Unicode White_Space
property, enumerated (code points 9-13, 32, 133, 160, 5760, 8192-8202,
8232, 8233, 8239, 8287, 12288). -/
def goIsSpace (c : Char) : Bool :=
  decide (c.toNat = 9 ∨ c.toNat = 10 ∨ c.toNat = 11 ∨ c.toNat = 12 ∨ c.toNat = 13 ∨
    c.toNat = 32 ∨ c.toNat = 133 ∨ c.toNat = 160 ∨ c.toNat = 5760 ∨
    (8192 ≤ c.toNat ∧ c.toNat ≤ 8202) ∨ c.toNat = 8232 ∨ c.toNat = 8233 ∨
    c.toNat = 8239 ∨ c.toNat = 8287 ∨ c.toNat = 12288)

/-- Accumulator loop of Go strings.Fields: split around runs of white
space; cur holds the current field reversed. -/
def fieldsAux : Str → Str → List Str
  | [], cur => if cur = [] then [] else [cur.reverse]
  | c :: rest, cur =>
    if goIsSpace c then
      if cur = [] then fieldsAux rest [] else cur.reverse :: fieldsAux rest []
    else fieldsAux rest (c :: cur)

/-- Go strings.Fields(s) (used by connect, part_007 line 331): the
whitespace-separated fields of s; quoting is not treated specially. -/
def goFields (s : Str) : List Str := fieldsAux s []

/-- Go strings.Replace(s, old, new, -1): replace every leftmost
non-overlapping occurrence of old.  The placeholders substituted by connect
are all two characters, so the old = "" case (where Go would interleave new
between all characters) is left as the identity. -/
def replaceAllGo (old new : Str) : Nat → Str → Str
  | 0, s => s
  | fuel + 1, s =>
    if old ≠ [] ∧ old.isPrefixOf s then
      new ++ replaceAllGo old new fuel (s.drop old.length)
    else
      match s with
      | [] => []
      | c :: rest => c :: replaceAllGo old new fuel rest

/-- Top-level entry: a fuel of s.length always suffices, because every step
consumes at least one character of s. -/
def replaceAll (old new s : Str) : Str := replaceAllGo old new s.length s

/-- Placeholder substitution done by connect (part_007 lines 332-340) on
one already-split token: sequential replacement of %u, %h, %p, %r, %n, %c
by user, hostName, port, proxyCommand, name and the config path. -/
def substToken (item : Host) (configPath : Str) (arg : Str) : Str :=
  let a1 := replaceAll "%u".toList item.user arg
  let a2 := replaceAll "%h".toList item.hostName a1
  let a3 := replaceAll "%p".toList item.port a2
  let a4 := replaceAll "%r".toList item.proxyCommand a3
  let a5 := replaceAll "%n".toList item.name a4
  replaceAll "%c".toList configPath a5

/-- Token list built by connect (part_007 lines 331-341): strings.Fields on
the template, then per-token placeholder substitution. -/
def connectTokens (item : Host) (configPath pattern : Str) : List Str :=
  (goFields pattern).map (substToken item configPath)

/-- exec.Command(args[0], args[1:]...) in connect (part_007 line 342): the
program and its argument list; none models the index panic on an empty
token list (an empty template). -/
def connectCommand (item : Host) (configPath pattern : Str) :
    Option (Str × List Str) :=
  match connectTokens item configPath pattern with
  | [] => none
  | p :: rest => some (p, rest)

/-- Modelled from the spec: the shell-style splitting the specification
describes for the argument template ("split it into shell-style tokens
(whitespace-separated, respecting quoting)") — double quotes group
characters, including white space, into the current token and are removed.
Defined only to compare the specified splitting with the code's
strings.Fields splitting. -/
def shellSplitAux : Str → Str → Bool → List Str
  | [], cur, _ => if cur = [] then [] else [cur.reverse]
  | c :: rest, cur, inQuote =>
    if c = '"' then shellSplitAux rest cur (!inQuote)
    else if goIsSpace c ∧ ¬inQuote then
      if cur = [] then shellSplitAux rest [] false
      else cur.reverse :: shellSplitAux rest [] false
    else shellSplitAux rest (c :: cur) inQuote

/-- Modelled from the spec: shell-style token splitting, top level. -/
def shellSplitSpec (s : Str) : List Str := shellSplitAux s [] false

/-- Sample host used to evaluate the launcher at concrete inputs; its
fields contain no placeholder, so substitution leaves pure-text tokens
unchanged. -/
def sampleHost : Host :=
  ⟨"beta".toList, "u".toList, "b.example.com".toList, [], "22".toList⟩

/-- C2 (counterexample): on the template p "a b" the code executes program
p with arguments "a and b" (strings.Fields splits inside the double
quotes), while the claimed shell-style splitting yields the single argument
a b; the two tokenizations differ. -/
theorem connect_split_not_shell_style :
    connectCommand sampleHost "/c".toList "p \"a b\"".toList =
      some ("p".toList, ["\"a".toList, "b\"".toList]) ∧
    shellSplitSpec "p \"a b\"".toList = ["p".toList, "a b".toList] ∧
    (["\"a".toList, "b\"".toList] : List Str) ≠ ["a b".toList] := by
  refine ⟨by decide, by decide, by decide⟩

theorem fieldsAux_tokens (s : Str) :
    ∀ cur : Str, (∀ c, c ∈ cur → goIsSpace c = false) →
      ∀ t, t ∈ fieldsAux s cur → t ≠ [] ∧ ∀ c, c ∈ t → goIsSpace c = false := by
  induction s with
  | nil =>
    intro cur hcur t ht
    by_cases h : cur = []
    · simp [fieldsAux, h] at ht
    · simp only [fieldsAux, if_neg h, List.mem_singleton] at ht
      subst ht
      refine ⟨by simpa using h, ?_⟩
      intro c hc
      exact hcur c (List.mem_reverse.mp hc)
  | cons x rest ih =>
    intro cur hcur t ht
    by_cases hx : goIsSpace x = true
    · by_cases h : cur = []
      · rw [fieldsAux, if_pos hx, if_pos h] at ht
        exact ih [] (by simp) t ht
      · rw [fieldsAux, if_pos hx, if_neg h] at ht
        rcases List.mem_cons.mp ht with ht | ht
        · subst ht
          refine ⟨by simpa using h, ?_⟩
          intro c hc
          exact hcur c (List.mem_reverse.mp hc)
        · exact ih [] (by simp) t ht
    · rw [fieldsAux, if_neg hx] at ht
      refine ih (x :: cur) ?_ t ht
      intro c hc
      rcases List.mem_cons.mp hc with hc | hc
      · subst hc
        simpa using hx
      · exact hcur c hc

/-- C2 (amended): the launcher splits the template into whitespace-
separated fields — every resulting field is non-empty and contains no white
space, so quoting is not respected — substitutes the placeholders per
already-split token, and executes the first resulting token as the program
with the remaining tokens as its arguments; an empty token list (empty
template) is not handled by this launcher (args[0] panics). -/
theorem connect_fields_token_substitution (item : Host) (configPath pattern : Str) :
    connectTokens item configPath pattern =
      (goFields pattern).map (substToken item configPath) ∧
    (∀ t, t ∈ goFields pattern → t ≠ [] ∧ ∀ c, c ∈ t → goIsSpace c = false) ∧
    (∀ p rest, connectCommand item configPath pattern = some (p, rest) →
      p :: rest = connectTokens item configPath pattern) ∧
    (connectTokens item configPath pattern = [] →
      connectCommand item configPath pattern = none) := by
  refine ⟨rfl, ?_, ?_, ?_⟩
  · intro t ht
    exact fieldsAux_tokens pattern [] (by simp) t ht
  · intro p rest hcmd
    unfold connectCommand at hcmd
    cases h : connectTokens item configPath pattern with
    | nil => rw [h] at hcmd; exact absurd hcmd (by simp)
    | cons q qrest =>
      rw [h] at hcmd
      simp only [Option.some.injEq, Prod.mk.injEq] at hcmd
      rw [← hcmd.1, ← hcmd.2]
  · intro h
    unfold connectCommand
    rw [h]

/-- Witness for C2 (amended) at concrete templates: the field ssh of the
template ssh %n is a non-empty whitespace-free token, and on the template
p x the executed command is the head of the substituted token list. -/
theorem connect_fields_token_substitution_witness :
    ("ssh".toList ≠ [] ∧ ∀ c, c ∈ "ssh".toList → goIsSpace c = false) ∧
    "p".toList :: ["x".toList] = connectTokens sampleHost "/c".toList "p x".toList := by
  constructor
  · exact (connect_fields_token_substitution sampleHost "/c".toList "ssh %n".toList).2.1
      "ssh".toList (by decide)
  · exact (connect_fields_token_substitution sampleHost "/c".toList "p x".toList).2.2.1
      "p".toList ["x".toList] (by decide)

/-- Go strings.TrimSpace: drop leading and trailing white space. -/
def goTrimSpace (s : Str) : Str :=
  ((s.dropWhile goIsSpace).reverse.dropWhile goIsSpace).reverse

/-- Enter-key handler of NewHostsTable in ui/hosts.go lines 66-77 together
with its connect (lines 31-43): the selected row's column-0 text is read
and, with no emptiness guard, the UI is stopped and connect runs
exec.Command("ssh", "-F", configPath, strings.TrimSpace(hostname)).  The
result is the argument vector of the child process that is always
launched. -/
def enterActionUnguarded (ts : TableState) (configPath : Str) : Option (List Str) :=
  some ["ssh".toList, "-F".toList, configPath,
    goTrimSpace (cellText ts.rows ts.selected 0)]

/-- C9 (counterexample): with one host filtered out by the query zzz the
generated table (identical row content in both tview generations) holds
only the header, yet the ui/hosts.go Enter handler still launches a child:
ssh -F /c with an empty host argument — contradicting the claim that no
child process is launched; ssh then fails and connect propagates its
non-zero exit status via os.Exit. -/
theorem enter_empty_result_launches_child :
    (generate [sampleHost] "zzz".toList false 1).rows.length = 1 ∧
    enterActionUnguarded ⟨(generate [sampleHost] "zzz".toList false 1).rows, 1⟩
      "/c".toList =
      some ["ssh".toList, "-F".toList, "/c".toList, []] ∧
    enterActionUnguarded ⟨(generate [sampleHost] "zzz".toList false 1).rows, 1⟩
      "/c".toList ≠ none := by
  refine ⟨by decide, by decide, by decide⟩

/-- C9 (amended): when filtering produces zero visible rows the table holds
only the non-selectable header and no error is raised; in the part_007
generation the len(hostname) > 0 guard makes Enter a no-op (no child
process is launched), while in the earlier ui/hosts.go generation the
unguarded handler stops the UI and launches ssh -F configPath with an
empty trimmed hostname. -/
theorem enter_on_empty_result_by_generation
    (hosts : List Host) (filter : Str) (dfp : Bool) (prev r : Nat) (configPath : Str)
    (hempty : (generate hosts filter dfp prev).rows.length = 1)
    (hr : 1 ≤ r) :
    enterAction ⟨(generate hosts filter dfp prev).rows, r⟩ = none ∧
    enterActionUnguarded ⟨(generate hosts filter dfp prev).rows, r⟩ configPath =
      some ["ssh".toList, "-F".toList, configPath, []] := by
  have hrows : (generate hosts filter dfp prev).rows = [headerRow] :=
    generate_rows_of_length_one hosts filter dfp prev hempty
  have hcell : cellText [headerRow] r 0 = [] := cellText_header_only r hr
  constructor
  · rw [hrows]
    simp [enterAction, hcell]
  · rw [hrows]
    simp [enterActionUnguarded, hcell, goTrimSpace]

/-- Witness for C9 (amended): the single host beta filtered out by zzz
leaves only the header; Enter at selection row 1 is a no-op in the guarded
generation and launches ssh -F /c with the empty hostname in the unguarded
one. -/
theorem enter_on_empty_result_by_generation_witness :
    enterAction ⟨(generate [sampleHost] "zzz".toList false 1).rows, 1⟩ = none ∧
    enterActionUnguarded ⟨(generate [sampleHost] "zzz".toList false 1).rows, 1⟩
      "/c".toList =
      some ["ssh".toList, "-F".toList, "/c".toList, []] :=
  enter_on_empty_result_by_generation [sampleHost] "zzz".toList false 1 1 "/c".toList
    (by decide) (by decide)

/-- String hashed by asSha256 (part_007 lines 357-362): fmt.Sprintf with
verb %v renders the Host struct as "\x7bName User HostName ProxyCommand
Port\x7d", the field values separated by single spaces.  The code compares
SHA-256 hex digests of these renderings; digests coincide exactly when the
renderings do (SHA-256 is a pure function, and the code relies on distinct
renderings not colliding), so the rendering itself is the deduplication
key. -/
def asSha256Input (h : Host) : Str :=
  '\x7b' :: (h.name ++ ' ' :: h.user ++ ' ' :: h.hostName ++ ' ' :: h.proxyCommand ++
    ' ' :: h.port) ++ ['\x7d']

/-- Deduplication loop of NewHostsTable (part_007 lines 409-448): each host
is appended to the accumulated list unless some already-retained host has
the same digest. -/
def dedupLoop : List Host → List Host → List Host
  | acc, [] => acc
  | acc, h :: rest =>
    if acc.any (fun e => asSha256Input e == asSha256Input h) then dedupLoop acc rest
    else dedupLoop (acc ++ [h]) rest

/-- Deduplicated host list (table.Hosts after the NewHostsTable loop). -/
def dedupHosts (hosts : List Host) : List Host := dedupLoop [] hosts

/-- Elements the dedup loop appends beyond its accumulator. -/
def dedupExtra : List Host → List Host → List Host
  | _, [] => []
  | acc, h :: rest =>
    if acc.any (fun e => asSha256Input e == asSha256Input h) then dedupExtra acc rest
    else h :: dedupExtra (acc ++ [h]) rest

theorem dedupLoop_eq : ∀ (l acc : List Host), dedupLoop acc l = acc ++ dedupExtra acc l := by
  intro l
  induction l with
  | nil => intro acc; simp [dedupLoop, dedupExtra]
  | cons h rest ih =>
    intro acc
    by_cases hc : acc.any (fun e => asSha256Input e == asSha256Input h) = true
    · simp only [dedupLoop, dedupExtra, if_pos hc]
      exact ih acc
    · simp only [dedupLoop, dedupExtra, if_neg hc]
      rw [ih (acc ++ [h])]
      simp

theorem dedupExtra_sublist : ∀ (l acc : List Host), (dedupExtra acc l).Sublist l := by
  intro l
  induction l with
  | nil => intro acc; simp [dedupExtra]
  | cons h rest ih =>
    intro acc
    by_cases hc : acc.any (fun e => asSha256Input e == asSha256Input h) = true
    · simp only [dedupExtra, if_pos hc]
      exact (ih acc).trans (List.sublist_cons_self h rest)
    · simp only [dedupExtra, if_neg hc]
      exact List.Sublist.cons₂ h (ih (acc ++ [h]))

theorem dedupLoop_pairwise :
    ∀ (l acc : List Host),
      acc.Pairwise (fun a b => asSha256Input a ≠ asSha256Input b) →
      (dedupLoop acc l).Pairwise (fun a b => asSha256Input a ≠ asSha256Input b) := by
  intro l
  induction l with
  | nil => intro acc hacc; simpa [dedupLoop] using hacc
  | cons h rest ih =>
    intro acc hacc
    by_cases hc : acc.any (fun e => asSha256Input e == asSha256Input h) = true
    · simp only [dedupLoop, if_pos hc]
      exact ih acc hacc
    · simp only [dedupLoop, if_neg hc]
      refine ih (acc ++ [h]) ?_
      rw [List.pairwise_append]
      refine ⟨hacc, by simp, ?_⟩
      intro a ha b hb
      rw [List.mem_singleton] at hb
      subst hb
      have := (List.any_eq_true).not.mp hc
      push_neg at this
      have hne := this a ha
      intro hkey
      exact hne (by simpa [beq_iff_eq] using hkey)

theorem dedupLoop_complete :
    ∀ (l acc : List Host) (x : Host), x ∈ l →
      ∃ y, y ∈ dedupLoop acc l ∧ asSha256Input y = asSha256Input x := by
  intro l
  induction l with
  | nil => intro acc x hx; exact absurd hx (List.not_mem_nil x)
  | cons h rest ih =>
    intro acc x hx
    by_cases hc : acc.any (fun e => asSha256Input e == asSha256Input h) = true
    · simp only [dedupLoop, if_pos hc]
      rcases List.mem_cons.mp hx with hx | hx
      · subst hx
        obtain ⟨e, he, hkey⟩ := List.any_eq_true.mp hc
        refine ⟨e, ?_, by simpa [beq_iff_eq] using hkey⟩
        rw [dedupLoop_eq]
        exact List.mem_append_left _ he
      · exact ih acc x hx
    · simp only [dedupLoop, if_neg hc]
      rcases List.mem_cons.mp hx with hx | hx
      · subst hx
        refine ⟨x, ?_, rfl⟩
        rw [dedupLoop_eq]
        exact List.mem_append_left _ (List.mem_append_right _ (List.mem_singleton.mpr rfl))
      · exact ih (acc ++ [h]) x hx

theorem dedupLoop_filter_of_mem (z0 : Host) :
    ∀ (l acc : List Host), z0 ∈ acc →
      dedupLoop acc (l.filter (fun z => !(asSha256Input z == asSha256Input z0))) =
        dedupLoop acc l := by
  intro l
  induction l with
  | nil => intro acc hz; rfl
  | cons h rest ih =>
    intro acc hz
    by_cases hk : asSha256Input h = asSha256Input z0
    · have hp : (!(asSha256Input h == asSha256Input z0)) = false := by
        simp [beq_iff_eq, hk]
      have hany : acc.any (fun e => asSha256Input e == asSha256Input h) = true := by
        refine List.any_eq_true.mpr ⟨z0, hz, ?_⟩
        simp [beq_iff_eq, hk]
      rw [List.filter_cons, if_neg (by simp [hp])]
      rw [show dedupLoop acc (h :: rest) = dedupLoop acc rest by
        simp only [dedupLoop, if_pos hany]]
      exact ih acc hz
    · have hp : (!(asSha256Input h == asSha256Input z0)) = true := by
        simp [beq_iff_eq, hk]
      rw [List.filter_cons, if_pos (by simp [hp])]
      by_cases hc : acc.any (fun e => asSha256Input e == asSha256Input h) = true
      · simp only [dedupLoop, if_pos hc]
        exact ih acc hz
      · simp only [dedupLoop, if_neg hc]
        exact ih (acc ++ [h]) (List.mem_append_left _ hz)

theorem dedupExtra_congr :
    ∀ (l acc acc2 : List Host),
      (∀ z ∈ l, acc.any (fun e => asSha256Input e == asSha256Input z) =
        acc2.any (fun e => asSha256Input e == asSha256Input z)) →
      dedupExtra acc l = dedupExtra acc2 l := by
  intro l
  induction l with
  | nil => intro acc acc2 hyp; rfl
  | cons h rest ih =>
    intro acc acc2 hyp
    have hh := hyp h (List.mem_cons_self h rest)
    by_cases hc : acc.any (fun e => asSha256Input e == asSha256Input h) = true
    · simp only [dedupExtra, if_pos hc, if_pos (hh ▸ hc)]
      exact ih acc acc2 (fun z hzmem => hyp z (List.mem_cons_of_mem h hzmem))
    · have hc2 : ¬ acc2.any (fun e => asSha256Input e == asSha256Input h) = true := by
        rw [← hh]; exact hc
      simp only [dedupExtra, if_neg hc, if_neg hc2]
      congr 1
      refine ih (acc ++ [h]) (acc2 ++ [h]) ?_
      intro z hzmem
      rw [List.any_append, List.any_append, hyp z (List.mem_cons_of_mem h hzmem)]

theorem dedupHosts_first_wins (h : Host) (t : List Host) :
    dedupHosts (h :: t) =
      h :: dedupHosts (t.filter (fun z => !(asSha256Input z == asSha256Input h))) := by
  unfold dedupHosts
  have h0 : dedupLoop [] (h :: t) = dedupLoop [h] t := by
    simp [dedupLoop]
  rw [h0, ← dedupLoop_filter_of_mem h t [h] (List.mem_singleton.mpr rfl)]
  rw [dedupLoop_eq, dedupLoop_eq]
  rw [dedupExtra_congr (t.filter (fun z => !(asSha256Input z == asSha256Input h))) [h] []
    ?_]
  · simp
  · intro z hzmem
    have hz := (List.mem_filter.mp hzmem).2
    have hne : asSha256Input z ≠ asSha256Input h := by
      simpa [beq_iff_eq] using hz
    simp [List.any_cons, beq_iff_eq]
    exact fun hq => hne hq.symm

/-- C6 (amended): deduplication keys hosts by the SHA-256 digest of their
space-joined fmt %v rendering, which coincides for equal renderings: the
retained list is a sublist of the input (parse order preserved), its
renderings are pairwise distinct, every input host has a retained
representative with the same rendering, the first host of the list is
always retained and later hosts with its rendering are dropped, and
component-wise equal identity tuples always yield the same rendering (so
exact duplicates are merged) — but distinct tuples whose space-joined
renderings coincide are also merged, so tuple equality is sufficient yet
not necessary. -/
theorem dedup_by_rendering (l : List Host) :
    (dedupHosts l).Sublist l ∧
    (dedupHosts l).Pairwise (fun a b => asSha256Input a ≠ asSha256Input b) ∧
    (∀ x, x ∈ l → ∃ y, y ∈ dedupHosts l ∧ asSha256Input y = asSha256Input x) ∧
    (∀ h t, dedupHosts (h :: t) =
      h :: dedupHosts (t.filter (fun z => !(asSha256Input z == asSha256Input h)))) ∧
    (∀ a b : Host, a.name = b.name → a.user = b.user → a.hostName = b.hostName →
      a.proxyCommand = b.proxyCommand → a.port = b.port →
      asSha256Input a = asSha256Input b) := by
  refine ⟨?_, ?_, ?_, dedupHosts_first_wins, ?_⟩
  · rw [show dedupHosts l = dedupExtra [] l by rw [dedupHosts, dedupLoop_eq]; simp]
    exact dedupExtra_sublist l []
  · exact dedupLoop_pairwise l [] (by simp)
  · intro x hx
    exact dedupLoop_complete l [] x hx
  · intro a b h1 h2 h3 h4 h5
    simp [asSha256Input, h1, h2, h3, h4, h5]

/-- Witness for C6 (amended): a concrete host is its own retained
representative, and two field-wise equal tuples share the rendering. -/
theorem dedup_by_rendering_witness :
    (∃ y, y ∈ dedupHosts [sampleHost] ∧ asSha256Input y = asSha256Input sampleHost) ∧
    asSha256Input sampleHost = asSha256Input sampleHost := by
  constructor
  · exact (dedup_by_rendering [sampleHost]).2.2.1 sampleHost (by decide)
  · exact (dedup_by_rendering []).2.2.2.2 sampleHost sampleHost rfl rfl rfl rfl rfl

/-- Hosts with different identity tuples whose fmt %v renderings coincide:
the space inside one field is indistinguishable from the space separating
fields. -/
def hostConflA : Host := ⟨"x".toList, "y z".toList, "h".toList, [], "22".toList⟩

/-- Second host of the colliding pair: the name absorbed part of the user. -/
def hostConflB : Host := ⟨"x y".toList, "z".toList, "h".toList, [], "22".toList⟩

/-- C6 (counterexample): hostConflA and hostConflB have different identity
tuples, yet their renderings — hence their SHA-256 digests — coincide, so
the dedup loop drops the second; the claimed "duplicates iff tuples are
equal component-wise" fails in the only-if direction. -/
theorem dedup_not_tuple_identity :
    dedupHosts [hostConflA, hostConflB] = [hostConflA] ∧
    asSha256Input hostConflA = asSha256Input hostConflB ∧
    hostConflA ≠ hostConflB := by
  refine ⟨by decide, by decide, by decide⟩

/-- Go string comparison a < b: lexicographic on the characters, a proper
prefix being smaller (byte order and code-point order agree on UTF-8). -/
def lexLt : Str → Str → Bool
  | _, [] => false
  | [], _ :: _ => true
  | a :: as, b :: bs => a < b || (a = b && lexLt as bs)

theorem lexLt_asymm : ∀ s t : Str, lexLt s t = true → lexLt t s = false := by
  intro s
  induction s with
  | nil =>
    intro t ht
    cases t with
    | nil => simpa [lexLt] using ht
    | cons b bs => simp [lexLt]
  | cons a as ih =>
    intro t ht
    cases t with
    | nil => simpa [lexLt] using ht
    | cons b bs =>
      simp only [lexLt, Bool.or_eq_true, Bool.and_eq_true, decide_eq_true_eq] at ht
      simp only [lexLt, Bool.or_eq_false_iff, Bool.and_eq_false_iff,
        decide_eq_false_iff_not]
      rcases ht with hab | ⟨hab, hrec⟩
      · exact ⟨lt_asymm hab, Or.inl fun hba => (ne_of_lt hab) hba.symm⟩
      · subst hab
        exact ⟨lt_irrefl a, Or.inr (ih bs hrec)⟩

theorem lexLt_negtrans :
    ∀ s t u : Str, lexLt s t = false → lexLt t u = false → lexLt s u = false := by
  intro s
  induction s with
  | nil =>
    intro t u h1 h2
    cases u with
    | nil => simp [lexLt]
    | cons c cs =>
      cases t with
      | nil => simpa [lexLt] using h2
      | cons b bs => simpa [lexLt] using h1
  | cons a as ih =>
    intro t u h1 h2
    cases u with
    | nil => simp [lexLt]
    | cons c cs =>
      cases t with
      | nil => simpa [lexLt] using h2
      | cons b bs =>
        simp only [lexLt, Bool.or_eq_false_iff, Bool.and_eq_false_iff,
          decide_eq_false_iff_not] at h1 h2 ⊢
        obtain ⟨hab, hab2⟩ := h1
        obtain ⟨hbc, hbc2⟩ := h2
        have hba : b ≤ a := le_of_not_lt hab
        have hcb : c ≤ b := le_of_not_lt hbc
        refine ⟨not_lt.mpr (hcb.trans hba), ?_⟩
        by_cases hac : a = c
        · right
          have hab' : a = b := le_antisymm (by rw [hac]; exact hcb) hba
          have hbc' : b = c := by
            have hbla : b ≤ c := by rw [← hac]; exact hba
            exact le_antisymm hbla hcb
          rcases hab2 with h | h1r
          · exact absurd hab' h
          · rcases hbc2 with h | h2r
            · exact absurd hbc' h
            · exact ih bs cs h1r h2r
        · left
          exact hac

/-- Comparison closure handed to sort.Slice (part_007 lines 450-455 and
460-463): strings.ToLower(Name i) < strings.ToLower(Name j). -/
def lessName (a b : Host) : Bool := lexLt (goToLower a.name) (goToLower b.name)

/-- One compare-exchange between position j of the first six elements and
position 6+j, for every j (the gap-6 Shell pass of Go 1.17 sort.go,
quickSort_func, executed for slices of length at most 12; the pairs are
disjoint, so the sweep is an independent compare-swap of u with v). -/
def cmpSwapZip (less : α → α → Bool) : List α → List α → List α × List α
  | u, [] => (u, [])
  | [], v => ([], v)
  | a :: u, b :: v =>
    let p := cmpSwapZip less u v
    if less b a then (b :: p.1, a :: p.2) else (a :: p.1, b :: p.2)

/-- The gap-6 Shell pass over the whole slice. -/
def shellPass6 (less : α → α → Bool) (l : List α) : List α :=
  (cmpSwapZip less (l.take 6) (l.drop 6)).1 ++ (cmpSwapZip less (l.take 6) (l.drop 6)).2

/-- Inner loop of insertionSort_func: the new element x sinks left past
every element strictly greater than it (the list here is the already-sorted
prefix reversed, so sinking walks it front to back). -/
def sinkLeft (less : α → α → Bool) (x : α) : List α → List α
  | [] => [x]
  | y :: rest => if less x y then y :: sinkLeft less x rest else x :: y :: rest

/-- One outer step of insertionSort_func: insert x into the sorted prefix
acc by sinking from the right end. -/
def insertGo (less : α → α → Bool) (acc : List α) (x : α) : List α :=
  (sinkLeft less x acc.reverse).reverse

/-- insertionSort_func of Go sort.go: left-to-right fold of the insertion
step. -/
def insertionSortGo (less : α → α → Bool) (l : List α) : List α :=
  l.foldl (insertGo less) []

/-- sort.Slice of the Go 1.17 toolchain (pinned by the release workflow)
for slices of length at most 12: nothing for length below 2, otherwise the
gap-6 Shell pass followed by insertion sort (quickSort_func with b-a no
greater than 12). -/
def sortSliceGo (less : α → α → Bool) (l : List α) : List α :=
  if l.length ≤ 1 then l else insertionSortGo less (shellPass6 less l)

/-- Host ordering step of NewHostsTable (part_007 lines 450-455): sort by
lowercased name when the flag is set, keep parse order otherwise. -/
def sortHosts (sortFlag : Bool) (hosts : List Host) : List Host :=
  if sortFlag then sortSliceGo lessName hosts else hosts

theorem sinkLeft_perm (less : α → α → Bool) (x : α) :
    ∀ rl : List α, (sinkLeft less x rl).Perm (x :: rl) := by
  intro rl
  induction rl with
  | nil => simp [sinkLeft]
  | cons y rest ih =>
    by_cases h : less x y = true
    · simp only [sinkLeft, if_pos h]
      exact (ih.cons y).trans (List.Perm.swap x y rest)
    · simp only [sinkLeft, if_neg h]
      exact List.Perm.refl _

theorem insertGo_perm (less : α → α → Bool) (acc : List α) (x : α) :
    (insertGo less acc x).Perm (x :: acc) := by
  unfold insertGo
  refine (List.reverse_perm _).trans ?_
  refine (sinkLeft_perm less x acc.reverse).trans ?_
  exact (List.reverse_perm acc).cons x

theorem foldl_insertGo_perm (less : α → α → Bool) :
    ∀ (l acc : List α), (l.foldl (insertGo less) acc).Perm (acc ++ l) := by
  intro l
  induction l with
  | nil => intro acc; simp
  | cons h t ih =>
    intro acc
    rw [List.foldl_cons]
    refine (ih (insertGo less acc h)).trans ?_
    refine List.Perm.trans ?_ List.perm_middle.symm
    have h1 : (insertGo less acc h ++ t).Perm ((h :: acc) ++ t) :=
      List.Perm.append_right t (insertGo_perm less acc h)
    simpa using h1

theorem insertionSortGo_perm (less : α → α → Bool) (l : List α) :
    (insertionSortGo less l).Perm l := by
  simpa using foldl_insertGo_perm less l []

theorem cmpSwapZip_perm (less : α → α → Bool) :
    ∀ u v : List α,
      ((cmpSwapZip less u v).1 ++ (cmpSwapZip less u v).2).Perm (u ++ v) := by
  intro u
  induction u with
  | nil =>
    intro v
    cases v with
    | nil => simp [cmpSwapZip]
    | cons b bs => simp [cmpSwapZip]
  | cons a as ih =>
    intro v
    cases v with
    | nil => simp [cmpSwapZip]
    | cons b bs =>
      have key : ∀ x y : α,
          ((x :: (cmpSwapZip less as bs).1) ++ (y :: (cmpSwapZip less as bs).2)).Perm
            (x :: y :: (as ++ bs)) := by
        intro x y
        rw [List.cons_append]
        refine List.Perm.cons x ?_
        refine List.Perm.trans List.perm_middle ?_
        exact (ih bs).cons y
      by_cases h : less b a = true
      · simp only [cmpSwapZip, if_pos h]
        refine (key b a).trans ?_
        refine (List.Perm.swap a b (as ++ bs)).trans ?_
        rw [List.cons_append]
        exact List.perm_middle.symm.cons a
      · simp only [cmpSwapZip, if_neg h]
        refine (key a b).trans ?_
        rw [List.cons_append]
        exact List.perm_middle.symm.cons a

theorem shellPass6_perm (less : α → α → Bool) (l : List α) :
    (shellPass6 less l).Perm l := by
  unfold shellPass6
  refine (cmpSwapZip_perm less (l.take 6) (l.drop 6)).trans ?_
  rw [List.take_append_drop]

theorem sortSliceGo_perm (less : α → α → Bool) (l : List α) :
    (sortSliceGo less l).Perm l := by
  unfold sortSliceGo
  by_cases h : l.length ≤ 1
  · rw [if_pos h]
  · rw [if_neg h]
    exact (insertionSortGo_perm less _).trans (shellPass6_perm less l)

theorem sinkLeft_sorted (less : α → α → Bool)
    (hasym : ∀ a b, less a b = true → less b a = false)
    (hnt : ∀ a b c, less a b = false → less b c = false → less a c = false)
    (x : α) :
    ∀ rl : List α, rl.Pairwise (fun a b => less a b = false) →
      (sinkLeft less x rl).Pairwise (fun a b => less a b = false) := by
  intro rl
  induction rl with
  | nil => intro hrl; simp [sinkLeft]
  | cons y rest ih =>
    intro hrl
    rw [List.pairwise_cons] at hrl
    obtain ⟨hy, hrest⟩ := hrl
    by_cases h : less x y = true
    · simp only [sinkLeft, if_pos h]
      rw [List.pairwise_cons]
      refine ⟨?_, ih hrest⟩
      intro z hz
      rw [(sinkLeft_perm less x rest).mem_iff, List.mem_cons] at hz
      rcases hz with hz | hz
      · rw [hz]
        exact hasym x y h
      · exact hy z hz
    · simp only [sinkLeft, if_neg h]
      rw [List.pairwise_cons]
      refine ⟨?_, by rw [List.pairwise_cons]; exact ⟨hy, hrest⟩⟩
      intro z hz
      rcases List.mem_cons.mp hz with hz | hz
      · rw [hz]
        simpa using h
      · exact hnt x y z (by simpa using h) (hy z hz)

theorem insertGo_sorted (less : α → α → Bool)
    (hasym : ∀ a b, less a b = true → less b a = false)
    (hnt : ∀ a b c, less a b = false → less b c = false → less a c = false)
    (acc : List α) (x : α)
    (hacc : acc.Pairwise (fun a b => less b a = false)) :
    (insertGo less acc x).Pairwise (fun a b => less b a = false) := by
  unfold insertGo
  rw [List.pairwise_reverse]
  refine sinkLeft_sorted less hasym hnt x acc.reverse ?_
  rw [List.pairwise_reverse]
  exact hacc

theorem foldl_insertGo_sorted (less : α → α → Bool)
    (hasym : ∀ a b, less a b = true → less b a = false)
    (hnt : ∀ a b c, less a b = false → less b c = false → less a c = false) :
    ∀ (l acc : List α), acc.Pairwise (fun a b => less b a = false) →
      (l.foldl (insertGo less) acc).Pairwise (fun a b => less b a = false) := by
  intro l
  induction l with
  | nil => intro acc hacc; simpa using hacc
  | cons h t ih =>
    intro acc hacc
    rw [List.foldl_cons]
    exact ih (insertGo less acc h) (insertGo_sorted less hasym hnt acc h hacc)

theorem sortSliceGo_sorted (less : α → α → Bool)
    (hasym : ∀ a b, less a b = true → less b a = false)
    (hnt : ∀ a b c, less a b = false → less b c = false → less a c = false)
    (l : List α) :
    (sortSliceGo less l).Pairwise (fun a b => less b a = false) := by
  unfold sortSliceGo
  by_cases h : l.length ≤ 1
  · rw [if_pos h]
    match l with
    | [] => simp
    | [a] => simp
    | a :: b :: t => simp at h
  · rw [if_neg h]
    exact foldl_insertGo_sorted less hasym hnt (shellPass6 less l) [] (by simp)

theorem lessName_asymm (a b : Host) (h : lessName a b = true) : lessName b a = false :=
  lexLt_asymm _ _ h

theorem lessName_negtrans (a b c : Host) (h1 : lessName a b = false)
    (h2 : lessName b c = false) : lessName a c = false :=
  lexLt_negtrans _ _ _ h1 h2

/-- C8 (amended): with the sort flag unset the deduplicated parse order is
preserved unchanged; with it set, sort.Slice produces a permutation of the
host list that is non-decreasing by case-insensitively compared display
name, but it is not a stable sort — the relative order of hosts with equal
lowercased names is not preserved in general (the statement is scoped to
lists of at most 12 hosts, the regime in which the embedded small-slice
path of the pinned Go toolchain is the whole algorithm). -/
theorem sortHosts_spec (hosts : List Host) :
    sortHosts false hosts = hosts ∧
    (hosts.length ≤ 12 →
      (sortHosts true hosts).Perm hosts ∧
      (sortHosts true hosts).Pairwise (fun a b => lessName b a = false)) := by
  refine ⟨rfl, fun _ => ⟨?_, ?_⟩⟩
  · simp only [sortHosts, if_pos rfl]
    exact sortSliceGo_perm lessName hosts
  · simp only [sortHosts, if_pos rfl]
    exact sortSliceGo_sorted lessName lessName_asymm lessName_negtrans hosts

/-- Witness for C8 (amended) on a concrete two-host list. -/
theorem sortHosts_spec_witness :
    sortHosts false [sampleHost, hostConflA] = [sampleHost, hostConflA] ∧
    ((sortHosts true [sampleHost, hostConflA]).Perm [sampleHost, hostConflA] ∧
      (sortHosts true [sampleHost, hostConflA]).Pairwise
        (fun a b => lessName b a = false)) :=
  ⟨(sortHosts_spec [sampleHost, hostConflA]).1,
   (sortHosts_spec [sampleHost, hostConflA]).2 (by decide)⟩

/-- Hosts for the stability counterexample: seven hosts whose lowercased
names are e, a, b, c, d, f, a in parse order; the two a-hosts differ only
in name case and user. -/
def hostKeyE : Host := ⟨"e".toList, "u".toList, "e.example.com".toList, [], "22".toList⟩

/-- First a-host (uppercase name, parse position 1). -/
def hostKeyA1 : Host := ⟨"A".toList, "first".toList, "a.example.com".toList, [], "22".toList⟩

/-- Filler host with key b. -/
def hostKeyB : Host := ⟨"b".toList, "u".toList, "b.example.com".toList, [], "22".toList⟩

/-- Filler host with key c. -/
def hostKeyC : Host := ⟨"c".toList, "u".toList, "c.example.com".toList, [], "22".toList⟩

/-- Filler host with key d. -/
def hostKeyD : Host := ⟨"d".toList, "u".toList, "d.example.com".toList, [], "22".toList⟩

/-- Filler host with key f. -/
def hostKeyF : Host := ⟨"f".toList, "u".toList, "f.example.com".toList, [], "22".toList⟩

/-- Second a-host (lowercase name, parse position 6). -/
def hostKeyA2 : Host := ⟨"a".toList, "second".toList, "a.example.com".toList, [], "22".toList⟩

/-- Parse-order input list of the stability counterexample. -/
def stableProbe : List Host :=
  [hostKeyE, hostKeyA1, hostKeyB, hostKeyC, hostKeyD, hostKeyF, hostKeyA2]

/-- C8 (counterexample): sorting the seven-host list with the flag set
yields a list in which the a-host from parse position 6 precedes the
a-host from parse position 1 although their lowercased names are equal —
the gap-6 Shell pass of sort.Slice swaps the first a-host pair across the
list, so equal-keyed hosts do not keep their relative parse order and the
sort is not stable. -/
theorem sortHosts_not_stable :
    sortHosts true stableProbe =
      [hostKeyA2, hostKeyA1, hostKeyB, hostKeyC, hostKeyD, hostKeyE, hostKeyF] ∧
    goToLower hostKeyA1.name = goToLower hostKeyA2.name ∧
    hostKeyA1 ≠ hostKeyA2 ∧
    (sortHosts true stableProbe).indexOf hostKeyA2 <
      (sortHosts true stableProbe).indexOf hostKeyA1 ∧
    stableProbe.indexOf hostKeyA1 < stableProbe.indexOf hostKeyA2 := by
  refine ⟨by decide, by decide, by decide, by decide, by decide⟩

end Sshs
